import Mathlib

/-!
Verification of the uniform-cost search program in hw01/ucs_search.py.

The shallow embedding below mirrors the Python source:
  * a graph is an insertion-ordered association list (Python dict) mapping a
    node label to its insertion-ordered neighbour/weight association list;
  * the frontier is a multiset of entries (cost, tie, node, path); the heap
    pop is modelled by removing the entry minimal in the lexicographic
    (cost, tie) order, which is exactly what heapq.heappop returns because
    the tie counter is unique among live entries;
  * the while loop is given explicit fuel; running out of fuel yields none,
    a completed run yields some (Except.ok result) for a successful return,
    some (Except.error .noPath) for the ValueError raise, and
    some (Except.error (.keyError n)) for the KeyError raised by the
    subscript graph[current] when current has no adjacency entry.
Edge weights are natural numbers: every claim restricts attention to
non-negative integer weights.
-/

namespace UCS

abbrev Node := String

abbrev Adj := List (Node × Nat)

abbrev Graph := List (Node × Adj)

/-- Lookup in an association list of node/cost pairs (Python dict read). -/
def lookupA : List (Node × Nat) → Node → Option Nat
  | [], _ => none
  | (k, v) :: rest, n => if k = n then some v else lookupA rest n

/-- Write to an association list of node/cost pairs (Python dict assignment:
an existing key keeps its position, a new key is appended). -/
def setA : List (Node × Nat) → Node → Nat → List (Node × Nat)
  | [], k, v => [(k, v)]
  | (k1, v1) :: rest, k, v =>
    if k1 = k then (k1, v) :: rest else (k1, v1) :: setA rest k v

/-- Lookup of a node adjacency list in a graph (Python dict read). -/
def lookupG : Graph → Node → Option Adj
  | [], _ => none
  | (k, a) :: rest, n => if k = n then some a else lookupG rest n

/-- A frontier entry: the tuple (cost, tie, node, path) pushed on the heap. -/
structure Entry where
  cost : Nat
  tie : Nat
  node : Node
  path : List Node
deriving DecidableEq

/-- The record returned by uniform_cost_search. -/
structure SearchResult where
  path : List Node
  total_cost : Nat
  nodes_generated : Nat
deriving DecidableEq

/-- The two ways the Python function can raise: the explicit ValueError for
an exhausted frontier, and the KeyError from graph[current]. -/
inductive Err where
  | noPath : Err
  | keyError : Node → Err
deriving DecidableEq

instance : DecidableEq (Except Err SearchResult) := fun a b =>
  match a, b with
  | .ok x, .ok y =>
    if h : x = y then .isTrue (by rw [h]) else .isFalse (by intro hc; cases hc; exact h rfl)
  | .ok _, .error _ => .isFalse (by intro hc; cases hc)
  | .error _, .ok _ => .isFalse (by intro hc; cases hc)
  | .error x, .error y =>
    if h : x = y then .isTrue (by rw [h]) else .isFalse (by intro hc; cases hc; exact h rfl)

/-- Heap order on entries: Python compares the tuples componentwise, and the
tie counter is distinct among live entries, so (cost, tie) decides. -/
def lexLe (a b : Entry) : Prop :=
  a.cost < b.cost ∨ (a.cost = b.cost ∧ a.tie ≤ b.tie)

instance (a b : Entry) : Decidable (lexLe a b) := by
  unfold lexLe; infer_instance

/-- Remove the (cost, tie)-least entry from the frontier, as heappop does. -/
def popMin : List Entry → Option (Entry × List Entry)
  | [] => none
  | e :: rest =>
    match popMin rest with
    | none => some (e, rest)
    | some (m, r) => if lexLe e m then some (e, rest) else some (m, e :: r)

/-- The mutable locals of one search invocation. -/
structure St where
  frontier : List Entry
  best : List (Node × Nat)
  tie : Nat
  ng : Nat

/-- The push condition of the inner loop: the neighbour has never been
reached, or the new cost strictly improves its recorded best cost. -/
def improves (best : List (Node × Nat)) (nbr : Node) (newCost : Nat) : Bool :=
  match lookupA best nbr with
  | none => true
  | some d => decide (newCost < d)

/-- The inner for loop over graph[current].items(): for every improving
neighbour, update best_cost, bump the counters, and push the new entry. -/
def relax (cost : Nat) (path : List Node) : Adj → St → St
  | [], st => st
  | (nbr, w) :: rest, st =>
    if improves st.best nbr (cost + w) then
      relax cost path rest
        { frontier := ⟨cost + w, st.tie + 1, nbr, path ++ [nbr]⟩ :: st.frontier
          best := setA st.best nbr (cost + w)
          tie := st.tie + 1
          ng := st.ng + 1 }
    else
      relax cost path rest st

/-- The while loop of uniform_cost_search, with explicit fuel. -/
def ucsLoop (g : Graph) (goal : Node) : Nat → St → Option (Except Err SearchResult)
  | 0, _ => none
  | fuel + 1, st =>
    match popMin st.frontier with
    | none => some (Except.error Err.noPath)
    | some (e, rest) =>
      if e.node = goal then
        some (Except.ok ⟨e.path, e.cost, st.ng⟩)
      else
        match lookupG g e.node with
        | none => some (Except.error (Err.keyError e.node))
        | some adj =>
          ucsLoop g goal fuel (relax e.cost e.path adj { st with frontier := rest })

/-- The locals as initialised before the while loop. -/
def initState (start : Node) : St :=
  { frontier := [⟨0, 0, start, [start]⟩], best := [(start, 0)], tie := 0, ng := 0 }

/-- uniform_cost_search(graph, start, goal), with explicit loop fuel. -/
def uniform_cost_search (g : Graph) (start goal : Node) (fuel : Nat) :
    Option (Except Err SearchResult) :=
  ucsLoop g goal fuel (initState start)

/-- The hardcoded edge list of build_graph. -/
def edgeList : List (Node × Node × Nat) :=
  [ ("Elmira", "Ithaca", 60),
    ("Elmira", "Williamsport", 80),
    ("Ithaca", "Binghamton", 80),
    ("Binghamton", "Syracuse", 110),
    ("Syracuse", "Albany", 200),
    ("Binghamton", "Albany", 220),
    ("Binghamton", "Scranton", 95),
    ("Scranton", "Wilkes-Barre", 30),
    ("Wilkes-Barre", "Stroudsburg", 105),
    ("Stroudsburg", "Albany", 190),
    ("Stroudsburg", "Paterson", 90),
    ("Paterson", "New York City", 35),
    ("Newark", "New York City", 25),
    ("Trenton", "New York City", 95),
    ("Allentown", "Newark", 130),
    ("Allentown", "Trenton", 80),
    ("Allentown", "Wilkes-Barre", 95),
    ("Allentown", "Scranton", 120),
    ("Allentown", "Harrisburg", 90),
    ("Harrisburg", "Lancaster", 60),
    ("Lancaster", "Philadelphia", 160),
    ("Harrisburg", "Philadelphia", 110),
    ("Harrisburg", "Williamsport", 135),
    ("Harrisburg", "Scranton", 175),
    ("Williamsport", "Scranton", 140),
    ("Philadelphia", "Trenton", 50) ]

/-- graph.setdefault(k, dict())[nbr] = w : update the adjacency list of k in
place if k is a key, otherwise append the key with a fresh singleton map. -/
def addKey (g : Graph) (k nbr : Node) (w : Nat) : Graph :=
  match g with
  | [] => [(k, [(nbr, w)])]
  | (k1, adj) :: rest =>
    if k1 = k then (k1, setA adj nbr w) :: rest else (k1, adj) :: addKey rest k nbr w

/-- build_graph(): fold the edge list into the bidirectional adjacency map. -/
def build_graph : Graph :=
  edgeList.foldl (fun g e => addKey (addKey g e.1 e.2.1 e.2.2) e.2.1 e.1 e.2.2) []

/-- (v, w) is one of the items of graph[u]. -/
def Edge (g : Graph) (u v : Node) (w : Nat) : Prop :=
  ∃ adj, lookupG g u = some adj ∧ (v, w) ∈ adj

/-- Executable edge test, agreeing with Edge on every graph. -/
def edgeB (g : Graph) (u v : Node) (w : Nat) : Bool :=
  match lookupG g u with
  | none => false
  | some adj => decide ((v, w) ∈ adj)

/-- IsPath g s v p c : p lists the nodes of a walk through g from s to v
whose edge weights sum to c, built up exactly as the search builds paths. -/
inductive IsPath (g : Graph) (s : Node) : Node → List Node → Nat → Prop where
  | single : IsPath g s s [s] 0
  | snoc {u p c v w} : IsPath g s u p c → Edge g u v w → IsPath g s v (p ++ [v]) (c + w)

/-- v can be reached from s by following edges of g. -/
inductive Reachable (g : Graph) (s : Node) : Node → Prop where
  | refl : Reachable g s s
  | tail {u v w} : Reachable g s u → Edge g u v w → Reachable g s v

theorem edge_of_edgeB {g : Graph} {u v : Node} {w : Nat}
    (h : edgeB g u v w = true) : Edge g u v w := by
  unfold edgeB at h
  rcases hl : lookupG g u with _ | adj
  · rw [hl] at h; cases h
  · rw [hl] at h; exact ⟨adj, hl, of_decide_eq_true h⟩

/-- Every node label occurring in the graph, as key or as neighbour. -/
def allNodes (g : Graph) : List Node :=
  g.foldr (fun kv acc => kv.1 :: kv.2.map Prod.fst ++ acc) []

/-- The nodes the search can ever place on the frontier. -/
def univList (g : Graph) (s : Node) : List Node := s :: allNodes g

/-- The largest edge weight mentioned anywhere in the graph. -/
def maxW (g : Graph) : Nat :=
  ((g.map fun kv => kv.2.map Prod.snd).flatten).foldr max 0

/-- An upper bound on the cost of any duplicate-free walk through g. -/
def costBound (g : Graph) (s : Node) : Nat :=
  (univList g s).dedup.length * maxW g

theorem lookupA_setA_self (l : List (Node × Nat)) (k : Node) (v : Nat) :
    lookupA (setA l k v) k = some v := by
  induction l with
  | nil => simp [setA, lookupA]
  | cons hd tl ih =>
    obtain ⟨k1, v1⟩ := hd
    by_cases h : k1 = k
    · simp [setA, h, lookupA]
    · simp [setA, h, lookupA, ih]

theorem lookupA_setA_ne (l : List (Node × Nat)) (k : Node) (v : Nat) (x : Node)
    (hx : x ≠ k) : lookupA (setA l k v) x = lookupA l x := by
  induction l with
  | nil => simp [setA, lookupA, Ne.symm hx]
  | cons hd tl ih =>
    obtain ⟨k1, v1⟩ := hd
    by_cases h : k1 = k
    · subst h
      simp [setA, lookupA, Ne.symm hx]
    · simp [setA, h, lookupA, ih]

theorem lexLe_refl (a : Entry) : lexLe a a := Or.inr ⟨rfl, le_refl _⟩

theorem lexLe_trans {a b c : Entry} (h1 : lexLe a b) (h2 : lexLe b c) : lexLe a c := by
  rcases h1 with h1 | ⟨h1, h1t⟩ <;> rcases h2 with h2 | ⟨h2, h2t⟩
  · exact Or.inl (h1.trans h2)
  · exact Or.inl (h2 ▸ h1)
  · exact Or.inl (h1 ▸ h2)
  · exact Or.inr ⟨h1.trans h2, h1t.trans h2t⟩

theorem lexLe_total (a b : Entry) : lexLe a b ∨ lexLe b a := by
  rcases Nat.lt_trichotomy a.cost b.cost with h | h | h
  · exact Or.inl (Or.inl h)
  · rcases Nat.le_total a.tie b.tie with ht | ht
    · exact Or.inl (Or.inr ⟨h, ht⟩)
    · exact Or.inr (Or.inr ⟨h.symm, ht⟩)
  · exact Or.inr (Or.inl h)

theorem lexLe_cost_le {a b : Entry} (h : lexLe a b) : a.cost ≤ b.cost := by
  rcases h with h | ⟨h, _⟩
  · exact Nat.le_of_lt h
  · exact Nat.le_of_eq h

theorem popMin_eq_none {l : List Entry} (h : popMin l = none) : l = [] := by
  cases l with
  | nil => rfl
  | cons e rest =>
    exfalso
    simp only [popMin] at h
    rcases hr : popMin rest with _ | ⟨m, r⟩ <;> rw [hr] at h
    · cases h
    · by_cases hc : lexLe e m <;> simp [hc] at h

theorem popMin_mem {l : List Entry} {m : Entry} {r : List Entry}
    (h : popMin l = some (m, r)) : m ∈ l := by
  induction l generalizing m r with
  | nil => cases h
  | cons e rest ih =>
    simp only [popMin] at h
    rcases hr : popMin rest with _ | ⟨m0, r0⟩ <;> rw [hr] at h
    · cases h; exact List.mem_cons_self _ _
    · by_cases hc : lexLe e m0 <;> simp only [hc, if_true, if_false] at h
      · cases h; exact List.mem_cons_self _ _
      · cases h; exact List.mem_cons_of_mem _ (ih hr)

theorem popMin_le {l : List Entry} {m : Entry} {r : List Entry}
    (h : popMin l = some (m, r)) : ∀ x ∈ l, lexLe m x := by
  induction l generalizing m r with
  | nil => cases h
  | cons e rest ih =>
    simp only [popMin] at h
    rcases hr : popMin rest with _ | ⟨m0, r0⟩ <;> rw [hr] at h
    · cases h
      have : rest = [] := popMin_eq_none hr
      subst this
      intro x hx
      rcases List.mem_singleton.mp hx with rfl
      exact lexLe_refl _
    · by_cases hc : lexLe e m0 <;> simp only [hc, if_true, if_false] at h
      · cases h
        intro x hx
        rcases List.mem_cons.mp hx with rfl | hx
        · exact lexLe_refl _
        · exact lexLe_trans hc (ih hr x hx)
      · cases h
        intro x hx
        rcases List.mem_cons.mp hx with rfl | hx
        · rcases lexLe_total x m with h1 | h1
          · exact absurd h1 hc
          · exact h1
        · exact ih hr x hx

theorem popMin_sub {l : List Entry} {m : Entry} {r : List Entry}
    (h : popMin l = some (m, r)) : ∀ x ∈ r, x ∈ l := by
  induction l generalizing m r with
  | nil => cases h
  | cons e rest ih =>
    simp only [popMin] at h
    rcases hr : popMin rest with _ | ⟨m0, r0⟩ <;> rw [hr] at h
    · cases h; exact fun x hx => List.mem_cons_of_mem _ hx
    · by_cases hc : lexLe e m0 <;> simp only [hc, if_true, if_false] at h
      · cases h; exact fun x hx => List.mem_cons_of_mem _ hx
      · cases h
        intro x hx
        rcases List.mem_cons.mp hx with rfl | hx
        · exact List.mem_cons_self _ _
        · exact List.mem_cons_of_mem _ (ih hr x hx)

theorem popMin_cover {l : List Entry} {m : Entry} {r : List Entry}
    (h : popMin l = some (m, r)) : ∀ x ∈ l, x = m ∨ x ∈ r := by
  induction l generalizing m r with
  | nil => cases h
  | cons e rest ih =>
    simp only [popMin] at h
    rcases hr : popMin rest with _ | ⟨m0, r0⟩ <;> rw [hr] at h
    · cases h
      have : rest = [] := popMin_eq_none hr
      subst this
      intro x hx
      rcases List.mem_singleton.mp hx with rfl
      exact Or.inl rfl
    · by_cases hc : lexLe e m0 <;> simp only [hc, if_true, if_false] at h
      · cases h
        intro x hx
        rcases List.mem_cons.mp hx with rfl | hx
        · exact Or.inl rfl
        · exact Or.inr hx
      · cases h
        intro x hx
        rcases List.mem_cons.mp hx with rfl | hx
        · exact Or.inr (List.mem_cons_self _ _)
        · rcases ih hr x hx with rfl | hx0
          · exact Or.inl rfl
          · exact Or.inr (List.mem_cons_of_mem _ hx0)

theorem popMin_length {l : List Entry} {m : Entry} {r : List Entry}
    (h : popMin l = some (m, r)) : l.length = r.length + 1 := by
  induction l generalizing m r with
  | nil => cases h
  | cons e rest ih =>
    simp only [popMin] at h
    rcases hr : popMin rest with _ | ⟨m0, r0⟩ <;> rw [hr] at h
    · cases h; rfl
    · by_cases hc : lexLe e m0 <;> simp only [hc, if_true, if_false] at h
      · cases h; rfl
      · cases h
        simp only [List.length_cons, ih hr]

theorem IsPath_ne_nil {g : Graph} {s v : Node} {p : List Node} {c : Nat}
    (h : IsPath g s v p c) : p ≠ [] := by
  cases h with
  | single => simp
  | snoc h e => simp

theorem IsPath_head {g : Graph} {s v : Node} {p : List Node} {c : Nat}
    (h : IsPath g s v p c) : p.head? = some s := by
  induction h with
  | single => rfl
  | @snoc u p c v w hp e ih =>
    cases p with
    | nil => exact absurd rfl (IsPath_ne_nil hp)
    | cons a t => simpa using ih

theorem IsPath_last {g : Graph} {s v : Node} {p : List Node} {c : Nat}
    (h : IsPath g s v p c) : p.getLast? = some v := by
  cases h with
  | single => rfl
  | snoc hp e => exact List.getLast?_concat _

theorem IsPath_mem_last {g : Graph} {s v : Node} {p : List Node} {c : Nat}
    (h : IsPath g s v p c) : v ∈ p := by
  cases h with
  | single => exact List.mem_singleton.mpr rfl
  | snoc hp e => exact List.mem_append_right _ (List.mem_singleton.mpr rfl)

theorem IsPath_reachable {g : Graph} {s v : Node} {p : List Node} {c : Nat}
    (h : IsPath g s v p c) : Reachable g s v := by
  induction h with
  | single => exact Reachable.refl
  | snoc hp e ih => exact Reachable.tail ih e

theorem lookupG_mem {g : Graph} {u : Node} {adj : Adj}
    (h : lookupG g u = some adj) : (u, adj) ∈ g := by
  induction g with
  | nil => cases h
  | cons kv rest ih =>
    obtain ⟨k, a⟩ := kv
    by_cases hk : k = u
    · subst hk
      have ha : a = adj := by simpa [lookupG] using h
      subst ha
      exact List.mem_cons_self _ _
    · simp only [lookupG, if_neg hk] at h
      exact List.mem_cons_of_mem _ (ih h)

theorem mem_allNodes_of_mem {g : Graph} {u : Node} {adj : Adj} {v : Node} {w : Nat}
    (hg : (u, adj) ∈ g) (hv : (v, w) ∈ adj) : v ∈ allNodes g := by
  induction g with
  | nil => cases hg
  | cons kv rest ih =>
    rcases List.mem_cons.mp hg with rfl | hg
    · show v ∈ allNodes ((u, adj) :: rest)
      simp only [allNodes, List.foldr_cons]
      exact List.mem_cons_of_mem _ (List.mem_append_left _ (List.mem_map_of_mem _ hv))
    · show v ∈ allNodes (kv :: rest)
      simp only [allNodes, List.foldr_cons]
      exact List.mem_cons_of_mem _ (List.mem_append_right _ (ih hg))

theorem Edge_mem_allNodes {g : Graph} {u v : Node} {w : Nat}
    (h : Edge g u v w) : v ∈ allNodes g := by
  obtain ⟨adj, hl, hm⟩ := h
  exact mem_allNodes_of_mem (lookupG_mem hl) hm

theorem le_foldr_max {x : Nat} {l : List Nat} (h : x ∈ l) : x ≤ l.foldr max 0 := by
  induction l with
  | nil => cases h
  | cons a t ih =>
    rcases List.mem_cons.mp h with rfl | h
    · exact le_max_left _ _
    · exact (ih h).trans (le_max_right _ _)

theorem Edge_w_le_maxW {g : Graph} {u v : Node} {w : Nat}
    (h : Edge g u v w) : w ≤ maxW g := by
  obtain ⟨adj, hl, hm⟩ := h
  refine le_foldr_max (List.mem_flatten.mpr ⟨adj.map Prod.snd, ?_, ?_⟩)
  · exact List.mem_map_of_mem _ (lookupG_mem hl)
  · exact List.mem_map_of_mem _ hm

theorem IsPath_subset_univ {g : Graph} {s v : Node} {p : List Node} {c : Nat}
    (h : IsPath g s v p c) : ∀ x ∈ p, x ∈ univList g s := by
  induction h with
  | single =>
    intro x hx
    rcases List.mem_singleton.mp hx with rfl
    exact List.mem_cons_self _ _
  | snoc hp e ih =>
    intro x hx
    rcases List.mem_append.mp hx with hx | hx
    · exact ih x hx
    · rcases List.mem_singleton.mp hx with rfl
      exact List.mem_cons_of_mem _ (Edge_mem_allNodes e)

theorem nodup_snoc {p : List Node} {v : Node} (h : p.Nodup) (hv : v ∉ p) :
    (p ++ [v]).Nodup := by
  rw [List.nodup_append]
  refine ⟨h, List.nodup_singleton _, ?_⟩
  intro a ha hav
  rcases List.mem_singleton.mp hav with rfl
  exact hv ha

theorem nodup_length_le {p u : List Node} (hnd : p.Nodup) (hsub : ∀ x ∈ p, x ∈ u) :
    p.length ≤ u.dedup.length := by
  have h1 : p.toFinset.card = p.length := List.toFinset_card_of_nodup hnd
  have h2 : u.toFinset.card = u.dedup.length := List.card_toFinset u
  have h3 : p.toFinset ⊆ u.toFinset := by
    intro a ha
    exact List.mem_toFinset.mpr (hsub a (List.mem_toFinset.mp ha))
  calc p.length = p.toFinset.card := h1.symm
    _ ≤ u.toFinset.card := Finset.card_le_card h3
    _ = u.dedup.length := h2

theorem IsPath_cost_le {g : Graph} {s v : Node} {p : List Node} {c : Nat}
    (h : IsPath g s v p c) : c ≤ (p.length - 1) * maxW g := by
  induction h with
  | single => simp
  | @snoc u p c v w hp e ih =>
    have hw : w ≤ maxW g := Edge_w_le_maxW e
    have hpos : 0 < p.length := List.length_pos.mpr (IsPath_ne_nil hp)
    have hlen : (p ++ [v]).length - 1 = p.length := by simp
    rw [hlen]
    calc c + w ≤ (p.length - 1) * maxW g + maxW g := Nat.add_le_add ih hw
      _ = ((p.length - 1) + 1) * maxW g := (Nat.succ_mul _ _).symm
      _ = p.length * maxW g := by rw [Nat.sub_add_cancel hpos]

theorem IsPath_cost_le_bound {g : Graph} {s v : Node} {p : List Node} {c : Nat}
    (h : IsPath g s v p c) (hnd : p.Nodup) : c ≤ costBound g s := by
  have h1 : c ≤ (p.length - 1) * maxW g := IsPath_cost_le h
  have h2 : p.length ≤ (univList g s).dedup.length :=
    nodup_length_le hnd (IsPath_subset_univ h)
  calc c ≤ (p.length - 1) * maxW g := h1
    _ ≤ (univList g s).dedup.length * maxW g :=
      Nat.mul_le_mul_right _ ((Nat.sub_le _ _).trans h2)
    _ = costBound g s := rfl

/-- What is true of every frontier entry: its path is a walk from the start
to its node of exactly its cost, the path repeats no node, and every node of
the path already has a recorded best cost at most the entry cost. -/
def entryOK (g : Graph) (s : Node) (best : List (Node × Nat)) (e : Entry) : Prop :=
  IsPath g s e.node e.path e.cost ∧ e.path.Nodup ∧
  ∀ u ∈ e.path, ∃ d, lookupA best u = some d ∧ d ≤ e.cost

/-- A non-goal node all of whose neighbours have been relaxed from cost d. -/
def Settled (g : Graph) (goal : Node) (best : List (Node × Nat)) (v : Node) (d : Nat) : Prop :=
  v ≠ goal ∧ ∃ adj, lookupG g v = some adj ∧
    ∀ nw ∈ adj, ∃ du, lookupA best nw.1 = some du ∧ du ≤ d + nw.2

/-- b2 refines b : every recorded best cost stays recorded and only drops. -/
def bestLe (b b2 : List (Node × Nat)) : Prop :=
  ∀ x d, lookupA b x = some d → ∃ d2, lookupA b2 x = some d2 ∧ d2 ≤ d

theorem bestLe_refl (b : List (Node × Nat)) : bestLe b b :=
  fun x d h => ⟨d, h, le_refl _⟩

theorem bestLe_trans {b1 b2 b3 : List (Node × Nat)}
    (h1 : bestLe b1 b2) (h2 : bestLe b2 b3) : bestLe b1 b3 := by
  intro x d h
  obtain ⟨d2, hd2, hle2⟩ := h1 x d h
  obtain ⟨d3, hd3, hle3⟩ := h2 x d2 hd2
  exact ⟨d3, hd3, hle3.trans hle2⟩

theorem entryOK_mono {g : Graph} {s : Node} {b b2 : List (Node × Nat)} {e : Entry}
    (hm : bestLe b b2) (h : entryOK g s b e) : entryOK g s b2 e := by
  obtain ⟨hp, hnd, hd⟩ := h
  refine ⟨hp, hnd, fun u hu => ?_⟩
  obtain ⟨d, hd1, hd2⟩ := hd u hu
  obtain ⟨d2, hd3, hd4⟩ := hm u d hd1
  exact ⟨d2, hd3, hd4.trans hd2⟩

theorem Settled_mono {g : Graph} {goal : Node} {b b2 : List (Node × Nat)} {v : Node} {d : Nat}
    (hm : bestLe b b2) (h : Settled g goal b v d) : Settled g goal b2 v d := by
  obtain ⟨hng, adj, hl, hrel⟩ := h
  refine ⟨hng, adj, hl, fun nw hnw => ?_⟩
  obtain ⟨du, hdu1, hdu2⟩ := hrel nw hnw
  obtain ⟨du2, hdu3, hdu4⟩ := hm nw.1 du hdu1
  exact ⟨du2, hdu3, hdu4.trans hdu2⟩

/-- Contribution of one node to the termination potential. -/
def phiVal (g : Graph) (s : Node) (best : List (Node × Nat)) (x : Node) : Nat :=
  match lookupA best x with
  | none => costBound g s + 1
  | some d => d

/-- Termination potential of the best-cost table: every push to the frontier
strictly decreases it, because a push strictly improves one recorded cost. -/
def phi (g : Graph) (s : Node) (best : List (Node × Nat)) : Nat :=
  ((univList g s).map (phiVal g s best)).sum

/-- Termination measure of the loop state: one iteration pops an entry and
pays one unit of frontier, and each push pays one unit of potential. -/
def mu (g : Graph) (s : Node) (st : St) : Nat :=
  phi g s st.best + st.frontier.length

theorem sum_le_pointwise {f f2 : Node → Nat} {l : List Node}
    (h : ∀ x ∈ l, f2 x ≤ f x) : (l.map f2).sum ≤ (l.map f).sum := by
  induction l with
  | nil => simp
  | cons a t ih =>
    simp only [List.map_cons, List.sum_cons]
    exact Nat.add_le_add (h a (List.mem_cons_self _ _))
      (ih fun x hx => h x (List.mem_cons_of_mem _ hx))

theorem sum_lt_of_mem {f f2 : Node → Nat} {l : List Node}
    (h : ∀ x ∈ l, f2 x ≤ f x) {v : Node} (hv : v ∈ l) (hs : f2 v < f v) :
    (l.map f2).sum < (l.map f).sum := by
  induction l with
  | nil => cases hv
  | cons a t ih =>
    simp only [List.map_cons, List.sum_cons]
    rcases List.mem_cons.mp hv with rfl | hv
    · exact Nat.add_lt_add_of_lt_of_le hs
        (sum_le_pointwise fun x hx => h x (List.mem_cons_of_mem _ hx))
    · exact Nat.add_lt_add_of_le_of_lt (h a (List.mem_cons_self _ _))
        (ih (fun x hx => h x (List.mem_cons_of_mem _ hx)) hv)

theorem phi_setA_lt {g : Graph} {s : Node} {b : List (Node × Nat)} {v : Node} {newC : Nat}
    (hv : v ∈ univList g s)
    (h0 : lookupA b v = none → newC ≤ costBound g s)
    (h1 : ∀ d, lookupA b v = some d → newC < d) :
    phi g s (setA b v newC) < phi g s b := by
  refine sum_lt_of_mem (fun x _ => ?_) hv ?_
  · by_cases hx : x = v
    · subst hx
      unfold phiVal
      rw [lookupA_setA_self]
      rcases hl : lookupA b x with _ | d
      · exact Nat.le_of_lt (Nat.lt_succ_of_le (h0 hl))
      · exact Nat.le_of_lt (h1 d hl)
    · unfold phiVal
      rw [lookupA_setA_ne _ _ _ _ hx]
  · unfold phiVal
    rw [lookupA_setA_self]
    rcases hl : lookupA b v with _ | d
    · exact Nat.lt_succ_of_le (h0 hl)
    · exact h1 d hl

theorem improves_true_iff (b : List (Node × Nat)) (nbr : Node) (nc : Nat) :
    improves b nbr nc = true ↔
      (lookupA b nbr = none ∨ ∃ d, lookupA b nbr = some d ∧ nc < d) := by
  unfold improves
  rcases h : lookupA b nbr with _ | d <;> simp [h]

theorem improves_false (b : List (Node × Nat)) (nbr : Node) (nc : Nat)
    (h : ¬ improves b nbr nc = true) :
    ∃ d, lookupA b nbr = some d ∧ d ≤ nc := by
  unfold improves at h
  rcases hl : lookupA b nbr with _ | d <;> rw [hl] at h
  · simp at h
  · simp only [decide_eq_true_eq] at h
    exact ⟨d, rfl, Nat.le_of_not_lt h⟩

/-- The facts holding when the inner loop starts relaxing the remaining
neighbours of the popped non-goal entry (node n, cost c, path p). -/
structure RelaxPre (g : Graph) (s goal n : Node) (c : Nat) (p : List Node) (st : St) : Prop where
  hE : ∀ e ∈ st.frontier, entryOK g s st.best e
  hS : lookupA st.best s = some 0
  hW : ∀ v d, lookupA st.best v = some d →
      (∃ e ∈ st.frontier, e.node = v ∧ e.cost = d) ∨ Settled g goal st.best v d ∨ v = n
  hB : ∀ v d, lookupA st.best v = some d → v ∈ univList g s ∧ d ≤ costBound g s
  hP : IsPath g s n p c
  hPnd : p.Nodup
  hPD : ∀ u ∈ p, ∃ d, lookupA st.best u = some d ∧ d ≤ c

/-- The facts holding after the inner loop has relaxed the neighbour list
adj0 of the popped entry, turning state st into state st2. -/
structure RelaxPost (g : Graph) (s goal n : Node) (c : Nat) (adj0 : Adj) (st st2 : St) : Prop where
  hE : ∀ e ∈ st2.frontier, entryOK g s st2.best e
  hS : lookupA st2.best s = some 0
  hW : ∀ v d, lookupA st2.best v = some d →
      (∃ e ∈ st2.frontier, e.node = v ∧ e.cost = d) ∨ Settled g goal st2.best v d ∨
      (v = n ∧ lookupA st.best v = some d)
  hB : ∀ v d, lookupA st2.best v = some d → v ∈ univList g s ∧ d ≤ costBound g s
  hRel : ∀ nw ∈ adj0, ∃ du, lookupA st2.best nw.1 = some du ∧ du ≤ c + nw.2
  hMono : bestLe st.best st2.best
  hF : ∀ e ∈ st.frontier, e ∈ st2.frontier
  hMu : phi g s st2.best + st2.frontier.length ≤ phi g s st.best + st.frontier.length

theorem relax_push_pre {g : Graph} {s goal n : Node} {c : Nat} {p : List Node} {st : St}
    {nbr : Node} {w : Nat}
    (pre : RelaxPre g s goal n c p st)
    (hEdge1 : Edge g n nbr w)
    (himp : improves st.best nbr (c + w) = true) :
    RelaxPre g s goal n c p
      ⟨⟨c + w, st.tie + 1, nbr, p ++ [nbr]⟩ :: st.frontier,
        setA st.best nbr (c + w), st.tie + 1, st.ng + 1⟩ ∧
    bestLe st.best (setA st.best nbr (c + w)) ∧
    phi g s (setA st.best nbr (c + w)) < phi g s st.best := by
  have himp1 := (improves_true_iff _ _ _).mp himp
  have hnotin : nbr ∉ p := by
    intro hmem
    obtain ⟨d, hd, hdle⟩ := pre.hPD nbr hmem
    rcases himp1 with hnone | ⟨d1, hd1, hlt1⟩
    · rw [hd] at hnone; cases hnone
    · rw [hd] at hd1
      cases hd1
      omega
  have hnbr_ne_s : nbr ≠ s := by
    intro h
    subst h
    rcases himp1 with hnone | ⟨d1, hd1, hlt1⟩
    · rw [pre.hS] at hnone; cases hnone
    · rw [pre.hS] at hd1
      cases hd1
      omega
  have hpath1 : IsPath g s nbr (p ++ [nbr]) (c + w) := pre.hP.snoc hEdge1
  have hnd1 : (p ++ [nbr]).Nodup := nodup_snoc pre.hPnd hnotin
  have hboundnc : c + w ≤ costBound g s := IsPath_cost_le_bound hpath1 hnd1
  have hnbr_univ : nbr ∈ univList g s :=
    List.mem_cons_of_mem _ (Edge_mem_allNodes hEdge1)
  have hstrict : ∀ d, lookupA st.best nbr = some d → c + w < d := by
    intro d hd
    rcases himp1 with hnone | ⟨d1, hd1, hlt1⟩
    · rw [hd] at hnone; cases hnone
    · rw [hd] at hd1; cases hd1; exact hlt1
  have hmono1 : bestLe st.best (setA st.best nbr (c + w)) := by
    intro x d hx
    by_cases hxn : x = nbr
    · subst hxn
      exact ⟨c + w, lookupA_setA_self _ _ _, Nat.le_of_lt (hstrict d hx)⟩
    · exact ⟨d, by rw [lookupA_setA_ne _ _ _ _ hxn]; exact hx, le_refl _⟩
  refine ⟨⟨?_, ?_, ?_, ?_, pre.hP, pre.hPnd, ?_⟩, hmono1, ?_⟩
  · intro e he
    rcases List.mem_cons.mp he with rfl | he
    · refine ⟨hpath1, hnd1, ?_⟩
      intro u hu
      rcases List.mem_append.mp hu with hu | hu
      · have hun : u ≠ nbr := fun h => hnotin (h ▸ hu)
        obtain ⟨d, hd, hdle⟩ := pre.hPD u hu
        exact ⟨d, by rw [lookupA_setA_ne _ _ _ _ hun]; exact hd, hdle.trans (Nat.le_add_right _ _)⟩
      · rcases List.mem_singleton.mp hu with rfl
        exact ⟨c + w, lookupA_setA_self _ _ _, le_refl _⟩
    · exact entryOK_mono hmono1 (pre.hE e he)
  · rw [lookupA_setA_ne _ _ _ _ (Ne.symm hnbr_ne_s)]
    exact pre.hS
  · intro v d hv
    by_cases hvn : v = nbr
    · subst hvn
      rw [lookupA_setA_self] at hv
      cases hv
      exact Or.inl ⟨⟨c + w, st.tie + 1, v, p ++ [v]⟩, List.mem_cons_self _ _, rfl, rfl⟩
    · rw [lookupA_setA_ne _ _ _ _ hvn] at hv
      rcases pre.hW v d hv with ⟨e, he, hen, hec⟩ | hset | hvn2
      · exact Or.inl ⟨e, List.mem_cons_of_mem _ he, hen, hec⟩
      · exact Or.inr (Or.inl (Settled_mono hmono1 hset))
      · exact Or.inr (Or.inr hvn2)
  · intro v d hv
    by_cases hvn : v = nbr
    · subst hvn
      rw [lookupA_setA_self] at hv
      cases hv
      exact ⟨hnbr_univ, hboundnc⟩
    · rw [lookupA_setA_ne _ _ _ _ hvn] at hv
      exact pre.hB v d hv
  · intro u hu
    have hun : u ≠ nbr := fun h => hnotin (h ▸ hu)
    obtain ⟨d, hd, hdle⟩ := pre.hPD u hu
    exact ⟨d, by rw [lookupA_setA_ne _ _ _ _ hun]; exact hd, hdle⟩
  · exact phi_setA_lt hnbr_univ (fun _ => hboundnc) hstrict

theorem relax_main {g : Graph} {s goal n : Node} {c : Nat} {p : List Node} :
    ∀ (adj0 : Adj) (st : St), RelaxPre g s goal n c p st →
      (∀ nw ∈ adj0, Edge g n nw.1 nw.2) →
      RelaxPost g s goal n c adj0 st (relax c p adj0 st) := by
  intro adj0
  induction adj0 with
  | nil =>
    intro st pre _
    refine ⟨pre.hE, pre.hS, ?_, pre.hB, ?_, bestLe_refl _, fun e he => he, le_refl _⟩
    · intro v d hv
      rcases pre.hW v d hv with h | h | h
      · exact Or.inl h
      · exact Or.inr (Or.inl h)
      · exact Or.inr (Or.inr ⟨h, hv⟩)
    · intro nw hnw; cases hnw
  | cons nw0 rest ih =>
    obtain ⟨nbr, w⟩ := nw0
    intro st pre hEdges
    have hEdge1 : Edge g n nbr w := hEdges (nbr, w) (List.mem_cons_self _ _)
    have hEdges2 : ∀ nw ∈ rest, Edge g n nw.1 nw.2 :=
      fun nw hnw => hEdges nw (List.mem_cons_of_mem _ hnw)
    by_cases himp : improves st.best nbr (c + w) = true
    · obtain ⟨pre1, hmono1, hphi1⟩ := relax_push_pre pre hEdge1 himp
      have hred : relax c p ((nbr, w) :: rest) st =
          relax c p rest
            ⟨⟨c + w, st.tie + 1, nbr, p ++ [nbr]⟩ :: st.frontier,
              setA st.best nbr (c + w), st.tie + 1, st.ng + 1⟩ := by
        simp only [relax, himp, if_true]
      have post1 := ih _ pre1 hEdges2
      rw [hred]
      refine ⟨post1.hE, post1.hS, ?_, post1.hB, ?_,
        bestLe_trans hmono1 post1.hMono, ?_, ?_⟩
      · intro v d hv
        rcases post1.hW v d hv with h | h | ⟨hveq, hlk⟩
        · exact Or.inl h
        · exact Or.inr (Or.inl h)
        · subst hveq
          by_cases hnn : nbr = v
          · subst hnn
            rw [lookupA_setA_self] at hlk
            cases hlk
            refine Or.inl ⟨⟨c + w, st.tie + 1, nbr, p ++ [nbr]⟩, ?_, rfl, rfl⟩
            exact post1.hF _ (List.mem_cons_self _ _)
          · rw [lookupA_setA_ne _ _ _ _ (fun h => hnn h.symm)] at hlk
            exact Or.inr (Or.inr ⟨rfl, hlk⟩)
      · intro nw hnw
        rcases List.mem_cons.mp hnw with rfl | hnw
        · obtain ⟨du, hdu, hdule⟩ :=
            post1.hMono nbr (c + w) (lookupA_setA_self _ _ _)
          exact ⟨du, hdu, hdule⟩
        · exact post1.hRel nw hnw
      · intro e he
        exact post1.hF e (List.mem_cons_of_mem _ he)
      · have h5 := post1.hMu
        simp only [List.length_cons] at h5
        omega
    · have hred : relax c p ((nbr, w) :: rest) st = relax c p rest st := by
        simp only [relax]
        rw [if_neg himp]
      obtain ⟨d0, hd0, hle0⟩ := improves_false _ _ _ himp
      have post1 := ih st pre hEdges2
      rw [hred]
      refine ⟨post1.hE, post1.hS, post1.hW, post1.hB, ?_,
        post1.hMono, post1.hF, post1.hMu⟩
      intro nw hnw
      rcases List.mem_cons.mp hnw with rfl | hnw
      · obtain ⟨du, hdu, hdule⟩ := post1.hMono nbr d0 hd0
        exact ⟨du, hdu, hdule.trans hle0⟩
      · exact post1.hRel nw hnw

/-- The loop invariant of the while loop, holding at the top of every
iteration. -/
structure Inv (g : Graph) (s goal : Node) (st : St) : Prop where
  hE : ∀ e ∈ st.frontier, entryOK g s st.best e
  hS : lookupA st.best s = some 0
  hW : ∀ v d, lookupA st.best v = some d →
      (∃ e ∈ st.frontier, e.node = v ∧ e.cost = d) ∨ Settled g goal st.best v d
  hB : ∀ v d, lookupA st.best v = some d → v ∈ univList g s ∧ d ≤ costBound g s

theorem Inv_init (g : Graph) (s goal : Node) : Inv g s goal (initState s) := by
  have hlk : ∀ v d, lookupA [(s, 0)] v = some d → v = s ∧ d = 0 := by
    intro v d h
    simp only [lookupA] at h
    by_cases hv : s = v
    · rw [if_pos hv] at h
      cases h
      exact ⟨hv.symm, rfl⟩
    · rw [if_neg hv] at h
      cases h
  refine ⟨?_, ?_, ?_, ?_⟩
  · intro e he
    rcases List.mem_singleton.mp he with rfl
    refine ⟨IsPath.single, List.nodup_singleton _, ?_⟩
    intro u hu
    rcases List.mem_singleton.mp hu with rfl
    exact ⟨0, by simp [lookupA], le_refl _⟩
  · simp [lookupA]
  · intro v d h
    obtain ⟨rfl, rfl⟩ := hlk v d h
    exact Or.inl ⟨⟨0, 0, v, [v]⟩, List.mem_singleton.mpr rfl, rfl, rfl⟩
  · intro v d h
    obtain ⟨rfl, rfl⟩ := hlk v d h
    exact ⟨List.mem_cons_self _ _, Nat.zero_le _⟩

theorem step_pres {g : Graph} {s goal : Node} {st : St} {e : Entry}
    {rest : List Entry} {adj : Adj}
    (inv : Inv g s goal st)
    (hpop : popMin st.frontier = some (e, rest))
    (hgoal : e.node ≠ goal)
    (hlook : lookupG g e.node = some adj) :
    Inv g s goal (relax e.cost e.path adj ⟨rest, st.best, st.tie, st.ng⟩) ∧
    mu g s (relax e.cost e.path adj ⟨rest, st.best, st.tie, st.ng⟩) < mu g s st := by
  obtain ⟨hP, hPnd, hPD⟩ := inv.hE e (popMin_mem hpop)
  have pre : RelaxPre g s goal e.node e.cost e.path ⟨rest, st.best, st.tie, st.ng⟩ := by
    refine ⟨?_, inv.hS, ?_, inv.hB, hP, hPnd, hPD⟩
    · intro x hx
      exact inv.hE x (popMin_sub hpop x hx)
    · intro v d hv
      rcases inv.hW v d hv with ⟨x, hxmem, hxn, hxc⟩ | hset
      · rcases popMin_cover hpop x hxmem with rfl | hxr
        · exact Or.inr (Or.inr hxn.symm)
        · exact Or.inl ⟨x, hxr, hxn, hxc⟩
      · exact Or.inr (Or.inl hset)
  have hEdges : ∀ nw ∈ adj, Edge g e.node nw.1 nw.2 := fun nw hnw => ⟨adj, hlook, hnw⟩
  have post := relax_main adj _ pre hEdges
  constructor
  · refine ⟨post.hE, post.hS, ?_, post.hB⟩
    intro v d hv
    rcases post.hW v d hv with h | h | ⟨hveq, hlk⟩
    · exact Or.inl h
    · exact Or.inr h
    · subst hveq
      rcases inv.hW _ d hlk with ⟨x, hxmem, hxn, hxc⟩ | hset
      · rcases popMin_cover hpop x hxmem with rfl | hxr
        · refine Or.inr ⟨hgoal, adj, hlook, ?_⟩
          intro nw hnw
          obtain ⟨du, hdu, hdule⟩ := post.hRel nw hnw
          rw [← hxc]
          exact ⟨du, hdu, hdule⟩
        · exact Or.inl ⟨x, post.hF x hxr, hxn, hxc⟩
      · exact Or.inr (Settled_mono post.hMono hset)
  · have h1 : phi g s (relax e.cost e.path adj ⟨rest, st.best, st.tie, st.ng⟩).best +
        (relax e.cost e.path adj ⟨rest, st.best, st.tie, st.ng⟩).frontier.length ≤
        phi g s st.best + rest.length := post.hMu
    have h2 := popMin_length hpop
    show _ + _ < _ + _
    omega

/-- Any walk from the start witnesses either a frontier entry of no larger
cost or a recorded best cost of no larger cost at its endpoint. -/
theorem walk {g : Graph} {s goal : Node} {st : St} (inv : Inv g s goal st)
    {v : Node} {p : List Node} {cp : Nat} (hp : IsPath g s v p cp) :
    (∃ x ∈ st.frontier, x.cost ≤ cp) ∨
    (∃ d, lookupA st.best v = some d ∧ d ≤ cp) := by
  induction hp with
  | single => exact Or.inr ⟨0, inv.hS, le_refl 0⟩
  | @snoc u p c v w hp e ih =>
    rcases ih with ⟨x, hx, hxc⟩ | ⟨d, hd, hdc⟩
    · exact Or.inl ⟨x, hx, hxc.trans (Nat.le_add_right _ _)⟩
    · rcases inv.hW u d hd with ⟨x, hxm, hxn, hxc⟩ | ⟨hng, adj, hl, hrel⟩
      · refine Or.inl ⟨x, hxm, ?_⟩
        rw [hxc]
        exact hdc.trans (Nat.le_add_right _ _)
      · obtain ⟨adj2, hl2, hm2⟩ := e
        rw [hl] at hl2
        cases hl2
        obtain ⟨du, hdu, hdule⟩ := hrel (v, w) hm2
        refine Or.inr ⟨du, hdu, ?_⟩
        calc du ≤ d + w := hdule
          _ ≤ c + w := Nat.add_le_add_right hdc w

/-- One-step unfolding of the while loop. -/
theorem ucsLoop_succ (g : Graph) (goal : Node) (fuel : Nat) (st : St) :
    ucsLoop g goal (fuel + 1) st =
      match popMin st.frontier with
      | none => some (Except.error Err.noPath)
      | some (e, rest) =>
        if e.node = goal then some (Except.ok ⟨e.path, e.cost, st.ng⟩)
        else match lookupG g e.node with
          | none => some (Except.error (Err.keyError e.node))
          | some adj =>
            ucsLoop g goal fuel (relax e.cost e.path adj { st with frontier := rest }) := rfl

theorem ucsLoop_sound {g : Graph} {s goal : Node} :
    ∀ (fuel : Nat) (st : St), Inv g s goal st → ∀ r,
      ucsLoop g goal fuel st = some (Except.ok r) →
      IsPath g s goal r.path r.total_cost ∧
      (∀ p c, IsPath g s goal p c → r.total_cost ≤ c) := by
  intro fuel
  induction fuel with
  | zero => intro st _ r h; cases h
  | succ fuel ih =>
    intro st inv r h
    rw [ucsLoop_succ] at h
    rcases hpop : popMin st.frontier with _ | ⟨e, rest⟩ <;> rw [hpop] at h <;>
      dsimp only at h
    · simp at h
    · by_cases hg : e.node = goal
      · rw [if_pos hg] at h
        simp only [Option.some.injEq, Except.ok.injEq] at h
        subst h
        constructor
        · have hOK := (inv.hE e (popMin_mem hpop)).1
          rw [hg] at hOK
          exact hOK
        · intro p c hp
          rcases walk inv hp with ⟨x, hxm, hxc⟩ | ⟨d, hd, hdc⟩
          · exact le_trans (lexLe_cost_le (popMin_le hpop x hxm)) hxc
          · rcases inv.hW goal d hd with ⟨x, hxm, hxn, hxc⟩ | hset
            · have h1 := lexLe_cost_le (popMin_le hpop x hxm)
              rw [hxc] at h1
              exact h1.trans hdc
            · exact absurd rfl hset.1
      · rw [if_neg hg] at h
        rcases hlk : lookupG g e.node with _ | adj <;> rw [hlk] at h
        · simp at h
        · obtain ⟨inv2, _⟩ := step_pres inv hpop hg hlk
          exact ih _ inv2 r h

theorem ucsLoop_total {g : Graph} {s goal : Node} :
    ∀ (N : Nat) (st : St), Inv g s goal st → mu g s st ≤ N →
      ∃ r, ucsLoop g goal (N + 1) st = some r := by
  intro N
  induction N with
  | zero =>
    intro st inv hmu
    have hlen : st.frontier.length = 0 := by
      unfold mu at hmu
      omega
    have hnil : st.frontier = [] := List.length_eq_zero.mp hlen
    exact ⟨Except.error Err.noPath, by rw [ucsLoop_succ, hnil]; rfl⟩
  | succ N ih =>
    intro st inv hmu
    rcases hpop : popMin st.frontier with _ | ⟨e, rest⟩
    · exact ⟨Except.error Err.noPath, by rw [ucsLoop_succ, hpop]⟩
    · by_cases hg : e.node = goal
      · refine ⟨Except.ok ⟨e.path, e.cost, st.ng⟩, ?_⟩
        rw [ucsLoop_succ, hpop]
        simp [hg]
      · rcases hlk : lookupG g e.node with _ | adj
        · refine ⟨Except.error (Err.keyError e.node), ?_⟩
          rw [ucsLoop_succ, hpop]
          simp [hg, hlk]
        · obtain ⟨inv2, hlt⟩ := step_pres inv hpop hg hlk
          have hmu2 : mu g s (relax e.cost e.path adj ⟨rest, st.best, st.tie, st.ng⟩) ≤ N := by
            omega
          obtain ⟨r, hr⟩ := ih _ inv2 hmu2
          refine ⟨r, ?_⟩
          rw [ucsLoop_succ, hpop]
          simp only [if_neg hg, hlk]
          exact hr

theorem ucsLoop_unreach {g : Graph} {s goal : Node}
    (hclosed : ∀ v, Reachable g s v → ∃ adj, lookupG g v = some adj)
    (hunreach : ¬ Reachable g s goal) :
    ∀ (fuel : Nat) (st : St), Inv g s goal st → ∀ r,
      ucsLoop g goal fuel st = some r → r = Except.error Err.noPath := by
  intro fuel
  induction fuel with
  | zero => intro st _ r h; cases h
  | succ fuel ih =>
    intro st inv r h
    rw [ucsLoop_succ] at h
    rcases hpop : popMin st.frontier with _ | ⟨e, rest⟩ <;> rw [hpop] at h <;>
      dsimp only at h
    · exact (Option.some.inj h).symm
    · have hreach : Reachable g s e.node :=
        IsPath_reachable (inv.hE e (popMin_mem hpop)).1
      by_cases hg : e.node = goal
      · exact absurd (hg ▸ hreach) hunreach
      · rw [if_neg hg] at h
        obtain ⟨adj, hadj⟩ := hclosed e.node hreach
        rw [hadj] at h
        obtain ⟨inv2, _⟩ := step_pres inv hpop hg hadj
        exact ih _ inv2 r h

theorem ucsLoop_no_keyerror {g : Graph} {s goal : Node}
    (hclosed : ∀ v, Reachable g s v → ∃ adj, lookupG g v = some adj) :
    ∀ (fuel : Nat) (st : St), Inv g s goal st → ∀ n,
      ucsLoop g goal fuel st ≠ some (Except.error (Err.keyError n)) := by
  intro fuel
  induction fuel with
  | zero => intro st _ n h; cases h
  | succ fuel ih =>
    intro st inv n h
    rw [ucsLoop_succ] at h
    rcases hpop : popMin st.frontier with _ | ⟨e, rest⟩ <;> rw [hpop] at h <;>
      dsimp only at h
    · cases Option.some.inj h
    · have hreach : Reachable g s e.node :=
        IsPath_reachable (inv.hE e (popMin_mem hpop)).1
      by_cases hg : e.node = goal
      · rw [if_pos hg] at h
        cases Option.some.inj h
      · rw [if_neg hg] at h
        obtain ⟨adj, hadj⟩ := hclosed e.node hreach
        rw [hadj] at h
        obtain ⟨inv2, _⟩ := step_pres inv hpop hg hadj
        exact ih _ inv2 n h

/-- Events recorded by the instrumented loop: a push of a neighbour entry
(remembering the best cost the neighbour had at that moment), or a pop. -/
inductive Ev where
  | pushEv : Node → Nat → Option Nat → Ev
  | popEv : Node → Nat → Ev
deriving DecidableEq

def isPush : Ev → Bool
  | .pushEv _ _ _ => true
  | .popEv _ _ => false

def countPush (l : List Ev) : Nat := (l.filter isPush).length

/-- The inner loop, instrumented with the list of events it performs. -/
def relaxT (cost : Nat) (path : List Node) : Adj → St × List Ev → St × List Ev
  | [], pr => pr
  | (nbr, w) :: rest, (st, evs) =>
    if improves st.best nbr (cost + w) then
      relaxT cost path rest
        (⟨⟨cost + w, st.tie + 1, nbr, path ++ [nbr]⟩ :: st.frontier,
          setA st.best nbr (cost + w), st.tie + 1, st.ng + 1⟩,
         evs ++ [Ev.pushEv nbr (cost + w) (lookupA st.best nbr)])
    else
      relaxT cost path rest (st, evs)

/-- The while loop, instrumented with the list of events it performs. -/
def ucsLoopT (g : Graph) (goal : Node) :
    Nat → St → List Ev → Option (Except Err SearchResult) × List Ev
  | 0, _, evs => (none, evs)
  | fuel + 1, st, evs =>
    match popMin st.frontier with
    | none => (some (Except.error Err.noPath), evs)
    | some (e, rest) =>
      if e.node = goal then
        (some (Except.ok ⟨e.path, e.cost, st.ng⟩), evs ++ [Ev.popEv e.node e.cost])
      else
        match lookupG g e.node with
        | none => (some (Except.error (Err.keyError e.node)), evs ++ [Ev.popEv e.node e.cost])
        | some adj =>
          match relaxT e.cost e.path adj
              (⟨rest, st.best, st.tie, st.ng⟩, evs ++ [Ev.popEv e.node e.cost]) with
          | (st2, evs2) => ucsLoopT g goal fuel st2 evs2

/-- One-step unfolding of the instrumented while loop. -/
theorem ucsLoopT_succ (g : Graph) (goal : Node) (fuel : Nat) (st : St) (evs : List Ev) :
    ucsLoopT g goal (fuel + 1) st evs =
      match popMin st.frontier with
      | none => (some (Except.error Err.noPath), evs)
      | some (e, rest) =>
        if e.node = goal then
          (some (Except.ok ⟨e.path, e.cost, st.ng⟩), evs ++ [Ev.popEv e.node e.cost])
        else
          match lookupG g e.node with
          | none => (some (Except.error (Err.keyError e.node)), evs ++ [Ev.popEv e.node e.cost])
          | some adj =>
            match relaxT e.cost e.path adj
                (⟨rest, st.best, st.tie, st.ng⟩, evs ++ [Ev.popEv e.node e.cost]) with
            | (st2, evs2) => ucsLoopT g goal fuel st2 evs2 := rfl

theorem relaxT_fst (cost : Nat) (path : List Node) :
    ∀ (adj : Adj) (st : St) (evs : List Ev),
      (relaxT cost path adj (st, evs)).1 = relax cost path adj st := by
  intro adj
  induction adj with
  | nil => intro st evs; rfl
  | cons nw rest ih =>
    intro st evs
    obtain ⟨nbr, w⟩ := nw
    by_cases himp : improves st.best nbr (cost + w) = true
    · simp only [relaxT, relax, himp, if_true]
      exact ih _ _
    · simp only [relaxT, relax, if_neg himp]
      exact ih _ _

theorem relaxT_ng (cost : Nat) (path : List Node) :
    ∀ (adj : Adj) (st : St) (evs : List Ev),
      (relaxT cost path adj (st, evs)).1.ng + countPush evs =
        st.ng + countPush (relaxT cost path adj (st, evs)).2 := by
  intro adj
  induction adj with
  | nil => intro st evs; rfl
  | cons nw rest ih =>
    intro st evs
    obtain ⟨nbr, w⟩ := nw
    by_cases himp : improves st.best nbr (cost + w) = true
    · simp only [relaxT, himp, if_true]
      have h1 := ih
        ⟨⟨cost + w, st.tie + 1, nbr, path ++ [nbr]⟩ :: st.frontier,
          setA st.best nbr (cost + w), st.tie + 1, st.ng + 1⟩
        (evs ++ [Ev.pushEv nbr (cost + w) (lookupA st.best nbr)])
      have h2 : countPush (evs ++ [Ev.pushEv nbr (cost + w) (lookupA st.best nbr)]) =
          countPush evs + 1 := by
        simp [countPush, List.filter_append, isPush]
      rw [h2] at h1
      dsimp only at h1
      omega
    · simp only [relaxT, if_neg himp]
      exact ih st evs

theorem ucsLoopT_fst (g : Graph) (goal : Node) :
    ∀ (fuel : Nat) (st : St) (evs : List Ev),
      (ucsLoopT g goal fuel st evs).1 = ucsLoop g goal fuel st := by
  intro fuel
  induction fuel with
  | zero => intro st evs; rfl
  | succ fuel ih =>
    intro st evs
    rw [ucsLoop_succ, ucsLoopT_succ]
    rcases hpop : popMin st.frontier with _ | ⟨e, rest⟩ <;> dsimp only
    by_cases hg : e.node = goal
    · rw [if_pos hg, if_pos hg]
    · rw [if_neg hg, if_neg hg]
      rcases hlk : lookupG g e.node with _ | adj <;> dsimp only
      rcases hrel : relaxT e.cost e.path adj
          (⟨rest, st.best, st.tie, st.ng⟩, evs ++ [Ev.popEv e.node e.cost]) with ⟨st2, evs2⟩
      dsimp only
      have h1 : st2 = relax e.cost e.path adj ⟨rest, st.best, st.tie, st.ng⟩ := by
        have h2 := relaxT_fst e.cost e.path adj ⟨rest, st.best, st.tie, st.ng⟩
          (evs ++ [Ev.popEv e.node e.cost])
        rw [hrel] at h2
        exact h2
      rw [ih st2 evs2, h1]

theorem ucsLoopT_ng (g : Graph) (goal : Node) :
    ∀ (fuel : Nat) (st : St) (evs : List Ev) (r : SearchResult) (evs2 : List Ev),
      ucsLoopT g goal fuel st evs = (some (Except.ok r), evs2) →
      r.nodes_generated + countPush evs = st.ng + countPush evs2 := by
  intro fuel
  induction fuel with
  | zero =>
    intro st evs r evs2 h
    simp [ucsLoopT] at h
  | succ fuel ih =>
    intro st evs r evs2 h
    rw [ucsLoopT_succ] at h
    rcases hpop : popMin st.frontier with _ | ⟨e, rest⟩ <;> rw [hpop] at h <;> dsimp only at h
    · simp at h
    · by_cases hg : e.node = goal
      · rw [if_pos hg] at h
        obtain ⟨h1, h2⟩ := Prod.mk.injEq .. ▸ h
        have h3 : r = ⟨e.path, e.cost, st.ng⟩ :=
          (Except.ok.inj (Option.some.inj h1)).symm
        subst h3
        subst h2
        have h4 : countPush (evs ++ [Ev.popEv e.node e.cost]) = countPush evs := by
          simp [countPush, List.filter_append, isPush]
        rw [h4]
      · rw [if_neg hg] at h
        rcases hlk : lookupG g e.node with _ | adj <;> rw [hlk] at h <;> dsimp only at h
        · simp at h
        · rcases hrel : relaxT e.cost e.path adj
              (⟨rest, st.best, st.tie, st.ng⟩, evs ++ [Ev.popEv e.node e.cost]) with ⟨st2, evsMid⟩
          rw [hrel] at h
          dsimp only at h
          have h5 := ih st2 evsMid r evs2 h
          have h6 := relaxT_ng e.cost e.path adj ⟨rest, st.best, st.tie, st.ng⟩
            (evs ++ [Ev.popEv e.node e.cost])
          rw [hrel] at h6
          dsimp only at h6
          have h7 : countPush (evs ++ [Ev.popEv e.node e.cost]) = countPush evs := by
            simp [countPush, List.filter_append, isPush]
          rw [h7] at h6
          omega

/-- What C6 requires of each event: pushes never concern the start node and
happen exactly at a strict best-cost improvement; pops carry no count. -/
def pushOK (s : Node) : Ev → Prop
  | Ev.pushEv n c old => n ≠ s ∧ (old = none ∨ ∃ d, old = some d ∧ c < d)
  | Ev.popEv _ _ => True

theorem relaxT_pushOK (s : Node) (cost : Nat) (path : List Node) :
    ∀ (adj : Adj) (st : St) (evs : List Ev),
      lookupA st.best s = some 0 → (∀ ev ∈ evs, pushOK s ev) →
      lookupA (relaxT cost path adj (st, evs)).1.best s = some 0 ∧
      ∀ ev ∈ (relaxT cost path adj (st, evs)).2, pushOK s ev := by
  intro adj
  induction adj with
  | nil => intro st evs hS hevs; exact ⟨hS, hevs⟩
  | cons nw rest ih =>
    intro st evs hS hevs
    obtain ⟨nbr, w⟩ := nw
    by_cases himp : improves st.best nbr (cost + w) = true
    · simp only [relaxT, himp, if_true]
      have hnbr_ne_s : nbr ≠ s := by
        intro heq
        subst heq
        rcases (improves_true_iff _ _ _).mp himp with hnone | ⟨d, hd, hlt⟩
        · rw [hS] at hnone; cases hnone
        · rw [hS] at hd; cases hd; omega
      refine ih _ _ ?_ ?_
      · show lookupA (setA st.best nbr (cost + w)) s = some 0
        rw [lookupA_setA_ne _ _ _ _ (Ne.symm hnbr_ne_s)]
        exact hS
      · intro ev hev
        rcases List.mem_append.mp hev with hev | hev
        · exact hevs ev hev
        · rcases List.mem_singleton.mp hev with rfl
          refine ⟨hnbr_ne_s, ?_⟩
          rcases (improves_true_iff _ _ _).mp himp with hnone | ⟨d, hd, hlt⟩
          · exact Or.inl hnone
          · exact Or.inr ⟨d, hd, hlt⟩
    · simp only [relaxT, if_neg himp]
      exact ih st evs hS hevs

theorem ucsLoopT_pushOK (g : Graph) (s goal : Node) :
    ∀ (fuel : Nat) (st : St) (evs : List Ev),
      lookupA st.best s = some 0 → (∀ ev ∈ evs, pushOK s ev) →
      ∀ ev ∈ (ucsLoopT g goal fuel st evs).2, pushOK s ev := by
  intro fuel
  induction fuel with
  | zero => intro st evs _ hevs; exact hevs
  | succ fuel ih =>
    intro st evs hS hevs
    rw [ucsLoopT_succ]
    rcases hpop : popMin st.frontier with _ | ⟨e, rest⟩ <;> dsimp only
    · exact hevs
    · have hevs2 : ∀ ev ∈ evs ++ [Ev.popEv e.node e.cost], pushOK s ev := by
        intro ev hev
        rcases List.mem_append.mp hev with hev | hev
        · exact hevs ev hev
        · rcases List.mem_singleton.mp hev with rfl
          trivial
      by_cases hg : e.node = goal
      · rw [if_pos hg]
        exact hevs2
      · rw [if_neg hg]
        rcases hlk : lookupG g e.node with _ | adj <;> dsimp only
        · exact hevs2
        · rcases hrel : relaxT e.cost e.path adj
              (⟨rest, st.best, st.tie, st.ng⟩, evs ++ [Ev.popEv e.node e.cost]) with ⟨st2, evsMid⟩
          dsimp only
          have h1 := relaxT_pushOK s e.cost e.path adj ⟨rest, st.best, st.tie, st.ng⟩
            (evs ++ [Ev.popEv e.node e.cost]) hS hevs2
          rw [hrel] at h1
          exact ih st2 evsMid h1.1 h1.2

/-- Edge-wise check of a lower-bound distance certificate: d never increases
by more than the edge weight along any edge of the graph. -/
def checkCert (g : Graph) (d : Node → Nat) : Bool :=
  g.all fun kv => kv.2.all fun vw => decide (d vw.1 ≤ d kv.1 + vw.2)

theorem checkCert_edge {g : Graph} {d : Node → Nat} {u v : Node} {w : Nat}
    (hc : checkCert g d = true) (he : Edge g u v w) : d v ≤ d u + w := by
  obtain ⟨adj, hl, hm⟩ := he
  have h1 := List.all_eq_true.mp hc (u, adj) (lookupG_mem hl)
  have h2 := List.all_eq_true.mp h1 (v, w) hm
  exact of_decide_eq_true h2

theorem checkCert_path {g : Graph} {d : Node → Nat} {s v : Node} {p : List Node} {c : Nat}
    (hc : checkCert g d = true) (hp : IsPath g s v p c) : d v ≤ d s + c := by
  induction hp with
  | single => simp
  | @snoc u p c v w hp e ih =>
    have h1 := checkCert_edge hc e
    omega

/-- The shortest distances from Elmira in the New York map, used as a
lower-bound certificate for the concrete scenario. -/
def nyDist (v : Node) : Nat :=
  if v = "Elmira" then 0
  else if v = "Ithaca" then 60
  else if v = "Williamsport" then 80
  else if v = "Binghamton" then 140
  else if v = "Harrisburg" then 215
  else if v = "Scranton" then 220
  else if v = "Wilkes-Barre" then 250
  else if v = "Syracuse" then 250
  else if v = "Lancaster" then 275
  else if v = "Allentown" then 305
  else if v = "Philadelphia" then 325
  else if v = "Stroudsburg" then 355
  else if v = "Albany" then 360
  else if v = "Trenton" then 375
  else if v = "Newark" then 435
  else if v = "Paterson" then 445
  else if v = "New York City" then 460
  else 0

/-- The path the code actually returns on the concrete scenario. -/
def nyBestPath : List Node :=
  ["Elmira", "Williamsport", "Harrisburg", "Allentown", "Newark", "New York City"]

/-- The path named by the specification for the concrete scenario. -/
def nyClaimPath : List Node :=
  ["Elmira", "Ithaca", "Binghamton", "Scranton", "Wilkes-Barre", "Stroudsburg",
   "Paterson", "New York City"]

/-- A two-node graph with a single edge, for the witnesses. -/
def g1 : Graph := [("a", [("b", 2)]), ("b", [])]

/-- A graph whose only node has no neighbours, for the unreachable case. -/
def gIso : Graph := [("a", [])]

/-- Two equal-cost paths to the goal; the path through a is inserted first. -/
def gTie1 : Graph := [("s", [("a", 1), ("b", 1)]), ("a", [("g", 1)]), ("b", [("g", 1)])]

/-- The same graph with the two neighbours of the start listed in the other
order, so the path through b is inserted first. -/
def gTie2 : Graph := [("s", [("b", 1), ("a", 1)]), ("a", [("g", 1)]), ("b", [("g", 1)])]

theorem ucs_self_aux (g : Graph) (s : Node) (fuel : Nat) :
    uniform_cost_search g s s (fuel + 1) = some (Except.ok ⟨[s], 0, 0⟩) := by
  show ucsLoop g s (fuel + 1) (initState s) = _
  rw [ucsLoop_succ]
  have hpop : popMin (initState s).frontier = some (⟨0, 0, s, [s]⟩, []) := rfl
  rw [hpop]
  dsimp only
  rw [if_pos rfl]
  rfl

theorem g1_reach (v : Node) (h : Reachable g1 "a" v) : v = "a" ∨ v = "b" := by
  induction h with
  | refl => exact Or.inl rfl
  | @tail u v w hr he ih =>
    obtain ⟨adj, hl, hm⟩ := he
    rcases ih with rfl | rfl
    · have h2 : adj = [("b", 2)] := by
        have h3 : lookupG g1 "a" = some [("b", 2)] := rfl
        rw [h3] at hl
        exact (Option.some.inj hl).symm
      subst h2
      have h4 := List.mem_singleton.mp hm
      exact Or.inr ((Prod.mk.injEq _ _ _ _ ▸ h4).1)
    · have h2 : adj = [] := by
        have h3 : lookupG g1 "b" = some [] := rfl
        rw [h3] at hl
        exact (Option.some.inj hl).symm
      subst h2
      cases hm

theorem g1_closed : ∀ v, Reachable g1 "a" v → ∃ adj, lookupG g1 v = some adj := by
  intro v h
  rcases g1_reach v h with rfl | rfl
  · exact ⟨[("b", 2)], rfl⟩
  · exact ⟨[], rfl⟩

theorem gIso_reach (v : Node) (h : Reachable gIso "a" v) : v = "a" := by
  induction h with
  | refl => rfl
  | @tail u v w hr he ih =>
    subst ih
    obtain ⟨adj, hl, hm⟩ := he
    have h2 : adj = [] := by
      have h3 : lookupG gIso "a" = some [] := rfl
      rw [h3] at hl
      exact (Option.some.inj hl).symm
    subst h2
    cases hm

/-- Claim C1: optimality. For every graph with non-negative integer edge
weights (weights are Nat here), whenever uniform_cost_search completes with
a SearchResult, its total_cost is at most the summed edge weights of every
path from start to goal in the graph, and in particular of every simple
path. -/
theorem ucs_optimal (g : Graph) (s t : Node) (fuel : Nat) (r : SearchResult)
    (h : uniform_cost_search g s t fuel = some (Except.ok r)) :
    ∀ p c, IsPath g s t p c → r.total_cost ≤ c :=
  fun p c hp => (ucsLoop_sound fuel (initState s) (Inv_init g s t) r h).2 p c hp

/-- Witness for C1 on the two-node graph. -/
theorem ucs_optimal_witness :
    uniform_cost_search g1 "a" "b" 2 = some (Except.ok ⟨["a", "b"], 2, 1⟩) ∧
    IsPath g1 "a" "b" ["a", "b"] 2 ∧
    (SearchResult.mk ["a", "b"] 2 1).total_cost ≤ 2 := by
  have hrun : uniform_cost_search g1 "a" "b" 2 = some (Except.ok ⟨["a", "b"], 2, 1⟩) := by
    decide
  have hpath : IsPath g1 "a" "b" (["a"] ++ ["b"]) (0 + 2) :=
    IsPath.snoc IsPath.single (edge_of_edgeB (by decide))
  exact ⟨hrun, hpath, ucs_optimal g1 "a" "b" 2 _ hrun ["a", "b"] 2 hpath⟩

/-- Claim C2, counterexample: on the hardcoded New York graph the search
returns the path through Williamsport, Harrisburg, Allentown and Newark at
total cost 460, not the path named in the specification and not cost 415
(the edge sums named there, 60+80+95+30+105+90+35, in fact total 495). -/
theorem ny_run_counterexample :
    uniform_cost_search build_graph "Elmira" "New York City" 18 =
      some (Except.ok ⟨nyBestPath, 460, 18⟩) ∧
    (460 : Nat) ≠ 415 ∧ nyBestPath ≠ nyClaimPath := by
  refine ⟨by decide, by decide, by decide⟩

/-- Claim C2, amended: the concrete run returns the path Elmira ->
Williamsport -> Harrisburg -> Allentown -> Newark -> New York City with
total cost 460 and 18 nodes generated, and 460 is the minimum achievable
sum of edge weights over all routes from Elmira to New York City. -/
theorem ny_run_result :
    uniform_cost_search build_graph "Elmira" "New York City" 18 =
      some (Except.ok ⟨nyBestPath, 460, 18⟩) ∧
    ∀ p c, IsPath build_graph "Elmira" "New York City" p c → 460 ≤ c := by
  constructor
  · decide
  · intro p c hp
    have hc : checkCert build_graph nyDist = true := by decide
    have h1 := checkCert_path hc hp
    have h2 : nyDist "New York City" = 460 := by decide
    have h3 : nyDist "Elmira" = 0 := by decide
    omega

/-- Witness for the amended C2: the returned path is itself a walk of cost
460, so the lower bound is tight. -/
theorem ny_run_result_witness :
    IsPath build_graph "Elmira" "New York City" nyBestPath 460 ∧ (460 : Nat) ≤ 460 := by
  have p1 : IsPath build_graph "Elmira" "Williamsport"
      (["Elmira"] ++ ["Williamsport"]) (0 + 80) :=
    IsPath.snoc IsPath.single (edge_of_edgeB (by decide))
  have p2 : IsPath build_graph "Elmira" "Harrisburg"
      ((["Elmira"] ++ ["Williamsport"]) ++ ["Harrisburg"]) ((0 + 80) + 135) :=
    IsPath.snoc p1 (edge_of_edgeB (by decide))
  have p3 : IsPath build_graph "Elmira" "Allentown"
      (((["Elmira"] ++ ["Williamsport"]) ++ ["Harrisburg"]) ++ ["Allentown"])
      (((0 + 80) + 135) + 90) :=
    IsPath.snoc p2 (edge_of_edgeB (by decide))
  have p4 : IsPath build_graph "Elmira" "Newark"
      ((((["Elmira"] ++ ["Williamsport"]) ++ ["Harrisburg"]) ++ ["Allentown"]) ++ ["Newark"])
      ((((0 + 80) + 135) + 90) + 130) :=
    IsPath.snoc p3 (edge_of_edgeB (by decide))
  have p5 : IsPath build_graph "Elmira" "New York City"
      (((((["Elmira"] ++ ["Williamsport"]) ++ ["Harrisburg"]) ++ ["Allentown"]) ++ ["Newark"])
        ++ ["New York City"])
      (((((0 + 80) + 135) + 90) + 130) + 25) :=
    IsPath.snoc p4 (edge_of_edgeB (by decide))
  have hp : IsPath build_graph "Elmira" "New York City" nyBestPath 460 := p5
  exact ⟨hp, ny_run_result.2 nyBestPath 460 hp⟩

/-- Claim C3: path and cost consistency. Whenever uniform_cost_search
completes with a SearchResult, the returned path is a walk through the
graph (consecutive pairs are edges whose weights sum to total_cost), it is
nonempty, begins with start and ends with goal. -/
theorem ucs_path_consistent (g : Graph) (s t : Node) (fuel : Nat) (r : SearchResult)
    (h : uniform_cost_search g s t fuel = some (Except.ok r)) :
    IsPath g s t r.path r.total_cost ∧ r.path ≠ [] ∧
    r.path.head? = some s ∧ r.path.getLast? = some t := by
  have h1 := (ucsLoop_sound fuel (initState s) (Inv_init g s t) r h).1
  exact ⟨h1, IsPath_ne_nil h1, IsPath_head h1, IsPath_last h1⟩

/-- Witness for C3 on the two-node graph. -/
theorem ucs_path_consistent_witness :
    uniform_cost_search g1 "a" "b" 2 = some (Except.ok ⟨["a", "b"], 2, 1⟩) ∧
    (IsPath g1 "a" "b" ["a", "b"] 2 ∧ (["a", "b"] : List Node) ≠ [] ∧
      (["a", "b"] : List Node).head? = some "a" ∧
      (["a", "b"] : List Node).getLast? = some "b") := by
  have hrun : uniform_cost_search g1 "a" "b" 2 = some (Except.ok ⟨["a", "b"], 2, 1⟩) := by
    decide
  exact ⟨hrun, ucs_path_consistent g1 "a" "b" 2 _ hrun⟩

/-- Claim C4: unreachable goal. If every node reachable from start has an
adjacency entry and the goal is not reachable from start, the search
exhausts the frontier and raises exactly the no-path error: some fuel makes
the run complete with that error, and no completed run returns a result or
fails in any other way. -/
theorem ucs_unreachable (g : Graph) (s t : Node)
    (hclosed : ∀ v, Reachable g s v → ∃ adj, lookupG g v = some adj)
    (hunreach : ¬ Reachable g s t) :
    (∃ fuel, uniform_cost_search g s t fuel = some (Except.error Err.noPath)) ∧
    (∀ fuel r, uniform_cost_search g s t fuel = some r → r = Except.error Err.noPath) := by
  constructor
  · obtain ⟨r, hr⟩ :=
      ucsLoop_total (mu g s (initState s)) (initState s) (Inv_init g s t) (le_refl _)
    have h2 := ucsLoop_unreach hclosed hunreach _ _ (Inv_init g s t) r hr
    exact ⟨mu g s (initState s) + 1, h2 ▸ hr⟩
  · intro fuel r h
    exact ucsLoop_unreach hclosed hunreach fuel (initState s) (Inv_init g s t) r h

/-- Witness for C4 on the one-node graph with no edges. -/
theorem ucs_unreachable_witness :
    (∃ fuel, uniform_cost_search gIso "a" "b" fuel = some (Except.error Err.noPath)) ∧
    (∀ fuel r, uniform_cost_search gIso "a" "b" fuel = some r →
      r = Except.error Err.noPath) := by
  refine ucs_unreachable gIso "a" "b" ?_ ?_
  · intro v h
    rw [gIso_reach v h]
    exact ⟨[], rfl⟩
  · intro h
    exact absurd (gIso_reach "b" h) (by decide)

/-- Claim C5, counterexample: with start absent from the graph and distinct
from the goal, the run completes with the KeyError from graph[current], not
with the no-path ValueError the claim predicts. -/
theorem missing_start_counterexample :
    uniform_cost_search ([] : Graph) "a" "b" 2 = some (Except.error (Err.keyError "a")) ∧
    Err.keyError "a" ≠ Err.noPath := ⟨by decide, by decide⟩

/-- Claim C5, amended: for every graph, start distinct from goal and start
not a key of the adjacency mapping, the very first iteration pops the start
entry and the subscript graph[start] fails, so the run completes with the
KeyError for the start node (a distinct failure, not the no-path error). -/
theorem missing_start_keyerror (g : Graph) (s t : Node) (fuel : Nat)
    (hne : s ≠ t) (hmiss : lookupG g s = none) :
    uniform_cost_search g s t (fuel + 1) = some (Except.error (Err.keyError s)) := by
  show ucsLoop g t (fuel + 1) (initState s) = _
  rw [ucsLoop_succ]
  have hpop : popMin (initState s).frontier = some (⟨0, 0, s, [s]⟩, []) := rfl
  rw [hpop]
  dsimp only
  rw [if_neg hne, hmiss]

/-- Witness for the amended C5 on the empty graph. -/
theorem missing_start_keyerror_witness :
    uniform_cost_search ([] : Graph) "a" "b" 1 = some (Except.error (Err.keyError "a")) :=
  missing_start_keyerror [] "a" "b" 0 (by decide) rfl

/-- Claim C6: nodes-generated accounting. On every successful run the
instrumented loop produces the same result together with its event trace,
and on that trace nodes_generated equals the number of push events (pops
are never counted), every push concerns a node other than the start, and
every push happens exactly at a strict best-cost improvement (the recorded
previous best is absent or strictly above the pushed cost). -/
theorem nodes_generated_spec (g : Graph) (s t : Node) (fuel : Nat) (r : SearchResult)
    (h : uniform_cost_search g s t fuel = some (Except.ok r)) :
    ∃ evs, ucsLoopT g t fuel (initState s) [] = (some (Except.ok r), evs) ∧
      r.nodes_generated = countPush evs ∧
      ∀ ev ∈ evs, pushOK s ev := by
  rcases hT : ucsLoopT g t fuel (initState s) [] with ⟨res, evs⟩
  have h1 : res = some (Except.ok r) := by
    have h2 := ucsLoopT_fst g t fuel (initState s) []
    rw [hT] at h2
    exact h2.trans h
  subst h1
  refine ⟨evs, rfl, ?_, ?_⟩
  · have h3 := ucsLoopT_ng g t fuel (initState s) [] r evs hT
    have h4 : countPush ([] : List Ev) = 0 := rfl
    have h5 : (initState s).ng = 0 := rfl
    omega
  · have h6 := ucsLoopT_pushOK g s t fuel (initState s) []
      (by simp [initState, lookupA]) (by intro ev hev; cases hev)
    rw [hT] at h6
    exact h6

/-- Witness for C6 on the two-node graph. -/
theorem nodes_generated_spec_witness :
    ∃ evs, ucsLoopT g1 "b" 2 (initState "a") [] = (some (Except.ok ⟨["a", "b"], 2, 1⟩), evs) ∧
      (SearchResult.mk ["a", "b"] 2 1).nodes_generated = countPush evs ∧
      ∀ ev ∈ evs, pushOK "a" ev :=
  nodes_generated_spec g1 "a" "b" 2 ⟨["a", "b"], 2, 1⟩ (by decide)

/-- Claim C7: deterministic FIFO tie-break. The popped frontier entry is
minimal in the lexicographic (cost, tie) order, so of two entries with
equal cost the one with the smaller insertion number, that is the one
inserted earlier, is expanded first; the search is a pure function of its
inputs, so repeated runs agree; and on the synthetic two-equal-cost-paths
graphs the engine returns the path whose final hop was inserted first,
following the insertion order of the adjacency list. -/
theorem tie_break_fifo :
    (∀ (l : List Entry) (e : Entry) (rest : List Entry),
        popMin l = some (e, rest) → ∀ x ∈ l, lexLe e x) ∧
    (∀ (g : Graph) (s t : Node) (fuel : Nat),
        uniform_cost_search g s t fuel = uniform_cost_search g s t fuel) ∧
    uniform_cost_search gTie1 "s" "g" 4 = some (Except.ok ⟨["s", "a", "g"], 2, 3⟩) ∧
    uniform_cost_search gTie2 "s" "g" 4 = some (Except.ok ⟨["s", "b", "g"], 2, 3⟩) :=
  ⟨fun _ _ _ h => popMin_le h, fun _ _ _ _ => rfl, by decide, by decide⟩

/-- Witness for C7: of two equal-cost entries the one with the smaller tie
is popped, and lexLe holds of the popped entry against both. -/
theorem tie_break_fifo_witness :
    lexLe ⟨5, 0, "x", ["x"]⟩ ⟨5, 1, "y", ["y"]⟩ :=
  tie_break_fifo.1 [⟨5, 1, "y", ["y"]⟩, ⟨5, 0, "x", ["x"]⟩] ⟨5, 0, "x", ["x"]⟩
    [⟨5, 1, "y", ["y"]⟩] (by decide) ⟨5, 1, "y", ["y"]⟩ (by decide)

/-- Claim C8: start equals goal. For every graph, searching from a node to
itself returns the single-node path with cost 0 and zero nodes generated
(one unit of fuel is enough: the seed entry is popped and is the goal). -/
theorem start_eq_goal (g : Graph) (s : Node) (fuel : Nat) :
    uniform_cost_search g s s (fuel + 1) = some (Except.ok ⟨[s], 0, 0⟩) :=
  ucs_self_aux g s fuel

/-- Claim C9: termination. If every node reachable from start has an
adjacency entry, some finite fuel completes the run, and the completed run
either returns a SearchResult or raises the no-path error. -/
theorem ucs_terminates (g : Graph) (s t : Node)
    (hclosed : ∀ v, Reachable g s v → ∃ adj, lookupG g v = some adj) :
    ∃ fuel r, uniform_cost_search g s t fuel = some r ∧
      ((∃ res, r = Except.ok res) ∨ r = Except.error Err.noPath) := by
  obtain ⟨r, hr⟩ :=
    ucsLoop_total (mu g s (initState s)) (initState s) (Inv_init g s t) (le_refl _)
  refine ⟨mu g s (initState s) + 1, r, hr, ?_⟩
  cases r with
  | ok res => exact Or.inl ⟨res, rfl⟩
  | error err =>
    cases err with
    | noPath => exact Or.inr rfl
    | keyError n =>
      exact absurd hr (ucsLoop_no_keyerror hclosed _ (initState s) (Inv_init g s t) n)

/-- Witness for C9 on the two-node graph. -/
theorem ucs_terminates_witness :
    ∃ fuel r, uniform_cost_search g1 "a" "b" fuel = some r ∧
      ((∃ res, r = Except.ok res) ∨ r = Except.error Err.noPath) :=
  ucs_terminates g1 "a" "b" g1_closed

/-- Claim C10: when start equals goal the popped seed entry passes the goal
test before the adjacency mapping is ever read, so the search succeeds with
the single-node result even when start is absent from the keys of the
graph. -/
theorem start_eq_goal_no_lookup (g : Graph) (s : Node) (fuel : Nat)
    (hmiss : lookupG g s = none) :
    uniform_cost_search g s s (fuel + 1) = some (Except.ok ⟨[s], 0, 0⟩) :=
  ucs_self_aux g s fuel

/-- Witness for C10 on the empty graph, where start has no adjacency. -/
theorem start_eq_goal_no_lookup_witness :
    uniform_cost_search ([] : Graph) "a" "a" 1 = some (Except.ok ⟨["a"], 0, 0⟩) :=
  start_eq_goal_no_lookup [] "a" 0 rfl

end UCS
